import Mathlib

/-
Shallow embedding of the `common` C++ library (src/include/common) and proofs
about it.  The embedding covers:

  * `result.hpp` : the closed error taxonomy `Error` (kind + message), the
    `Result`/`Status` sum type, the `ok`/`err` helpers and the fatal
    `unwrap`/`verify` escape hatches;
  * `bits.hpp`  : the validated bitmask container `FlagSet<Enum>`.

Machine integers are modelled as `Nat`.  A `FlagSet<Enum>` is generic over a
bitmask enum whose underlying unsigned type has `w` bits and whose `ALL`
member has underlying value `mask`; the embedding is parameterised by the two
numbers `w` and `mask` instead of by the enum type, and enum values are their
underlying integers (always `< 2 ^ w` in C++).  `std::bitset<NUM_BITS>` is a
natural number `< 2 ^ NUM_BITS`.  Bounds-checked `std::bitset` accesses
(`test`/`set`/`reset`/`flip`), which throw `std::out_of_range` for an index
`>= NUM_BITS`, are modelled by an explicit `thrown` outcome.
-/

set_option maxRecDepth 4000

namespace Common

/-- The 17 closed error kinds of `Error::ErrorType` (result.hpp:18-37). -/
inductive ErrorType where
  | ARITHMETIC_ERROR
  | FLOATING_POINT_ERROR
  | OVERFLOW_ERROR
  | ZERO_DIVISION_ERROR
  | ASSERTION_ERROR
  | ATTRIBUTE_ERROR
  | INDEX_ERROR
  | KEY_ERROR
  | OS_ERROR
  | TIMEOUT_ERROR
  | RUNTIME_ERROR
  | NOT_IMPLEMENTED_ERROR
  | SYNTAX_ERROR
  | SYSTEM_ERROR
  | TYPE_ERROR
  | VALUE_ERROR
  | GENERIC_ERROR
  deriving DecidableEq

/-- `struct Error` (result.hpp:16-97): a message (`str`, a borrowed C string,
modelled as `String`) together with an error kind. -/
structure Error where
  message : String
  type : ErrorType
  deriving DecidableEq

/-- Static `Error::toStr(ErrorType)` (result.hpp:61-82): the total mapping
from each error kind to its name. -/
def Error.toStr : ErrorType → String
  | .ARITHMETIC_ERROR => "ArithmeticError"
  | .FLOATING_POINT_ERROR => "FloatingPointError"
  | .OVERFLOW_ERROR => "OverflowError"
  | .ZERO_DIVISION_ERROR => "ZeroDivisionError"
  | .ASSERTION_ERROR => "AssertionError"
  | .ATTRIBUTE_ERROR => "AttributeError"
  | .INDEX_ERROR => "IndexError"
  | .KEY_ERROR => "KeyError"
  | .OS_ERROR => "OSError"
  | .TIMEOUT_ERROR => "TimeoutError"
  | .RUNTIME_ERROR => "RuntimeError"
  | .NOT_IMPLEMENTED_ERROR => "NotImplementedError"
  | .SYNTAX_ERROR => "SyntaxError"
  | .SYSTEM_ERROR => "SystemError"
  | .TYPE_ERROR => "TypeError"
  | .VALUE_ERROR => "ValueError"
  | .GENERIC_ERROR => "GenericError"

/-- Instance `Error::toStr() const` (result.hpp:85-96): formats
`"<KindName>: <message>"` with `::snprintf` into a thread-local 256-byte
buffer.  `snprintf` writes at most 255 characters plus the terminator and
returns the untruncated length, so the visible result is the first 255
characters of the full string; a non-positive return yields the empty
string.  Character lists model the buffer contents (all strings involved are
ASCII, one byte per character). -/
def Error.toStrBuf (e : Error) : List Char :=
  let full := (Error.toStr e.type).data ++ (": ").data ++ e.message.data
  let written := full.length
  if written ≤ 0 then [] else full.take 255

/-- `Result<T> = std::expected<T, Error>` (result.hpp:99-100). -/
abbrev Result (T : Type) := Except Error T

/-- `Status = Result<void>` (result.hpp:102). -/
abbrev Status := Result Unit

/-- `ok(value)` (result.hpp:104-108). -/
def ok {T : Type} (value : T) : Result T :=
  Except.ok value

/-- Nullary `ok()` for `Status` (result.hpp:116-119). -/
def okStatus : Status :=
  Except.ok ()

/-- `err(msg, typ)` (result.hpp:121-125), already injected into a failed
`Result`. -/
def err {T : Type} (msg : String) (typ : ErrorType) : Result T :=
  Except.error (Error.mk msg typ)

/-- `unwrap(result)` (result.hpp:127-143): returns the success payload, and
calls `std::abort()` when the result holds an error.  Process termination is
modelled by `none`: the function never produces a value on that path. -/
def unwrap {T : Type} : Result T → Option T
  | .ok v => some v
  | .error _ => none

/-- `verify(status)` (result.hpp:145-150): returns normally on success and
calls `std::abort()` on an error, modelled like `unwrap`. -/
def verify : Status → Option Unit
  | .ok _ => some ()
  | .error _ => none

/-- The loop body of the `NUM_BITS` initialiser (bits.hpp:59-69): count how
often `ALL`'s underlying value can be halved before reaching zero.  The loop
is phrased with explicit fuel so that the definition is structurally
recursive; fuel `≥ v` always suffices because `v` at least halves each
round. -/
def numBitsAux : Nat → Nat → Nat
  | 0, _ => 0
  | fuel + 1, v => if v = 0 then 0 else numBitsAux fuel (v / 2) + 1

/-- `FlagSet::NUM_BITS` (bits.hpp:59-69): the bit length of
`VALID_MASK = underlying(Enum::ALL)`. -/
def NUM_BITS (mask : Nat) : Nat :=
  numBitsAux mask mask

/-- The trailing-zero loop of `FlagSet::bitPosition` (bits.hpp:49-54),
with explicit fuel (fuel `≥ v` suffices). -/
def bitPosAux : Nat → Nat → Nat
  | 0, _ => 0
  | fuel + 1, v => if v &&& 1 = 0 ∧ v ≠ 0 then bitPosAux fuel (v / 2) + 1 else 0

/-- `FlagSet::bitPosition` (bits.hpp:43-57): `NUM_BITS` as a sentinel for a
zero input, otherwise the index of the lowest set bit. -/
def bitPosition (mask value : Nat) : Nat :=
  if value = 0 then NUM_BITS mask else bitPosAux value value

/-- The C++ `~v` on a `w`-bit unsigned value: complement within the low `w`
bits (the `== 0` / masked uses in the source are insensitive to the extra
high bits a promoted `~` would carry, for operands `< 2 ^ w`). -/
def complW (w v : Nat) : Nat :=
  (2 ^ w - 1) ^^^ v

/-- Static `FlagSet::isValid(Enum)` (bits.hpp:184-187):
`(underlying(value) & ~VALID_MASK) == 0`. -/
def isValidValue (w mask v : Nat) : Bool :=
  v &&& complW w mask == 0

/-- `FlagSet<Enum>` (bits.hpp:37-306): an `std::bitset<NUM_BITS>` holding
the stored flags, i.e. a natural number below `2 ^ NUM_BITS mask`. -/
structure FlagSet (mask : Nat) where
  bits : Nat
  hbits : bits < 2 ^ NUM_BITS mask

theorem FlagSet.ext {mask : Nat} {a b : FlagSet mask} (h : a.bits = b.bits) :
    a = b := by
  cases a
  cases b
  cases h
  rfl

instance {mask : Nat} : DecidableEq (FlagSet mask) := fun a b =>
  if h : a.bits = b.bits then .isTrue (FlagSet.ext h)
  else .isFalse (fun he => h (congrArg FlagSet.bits he))

/-- The default constructor (bits.hpp:75): an empty bit vector. -/
def FlagSet.empty (mask : Nat) : FlagSet mask :=
  ⟨0, Nat.two_pow_pos _⟩

/-- `FlagSet(Enum num)` (bits.hpp:77-80): store `underlying(num) & VALID_MASK`;
the `std::bitset` constructor keeps the low `NUM_BITS` bits. -/
def FlagSet.ofEnum (mask num : Nat) : FlagSet mask :=
  ⟨(num &&& mask) % 2 ^ NUM_BITS mask, Nat.mod_lt _ (Nat.two_pow_pos _)⟩

/-- `FlagSet::fromUnderlying(raw)` (bits.hpp:83-86):
`FlagSet(Enum(raw & VALID_MASK))`. -/
def FlagSet.fromUnderlying (mask raw : Nat) : FlagSet mask :=
  FlagSet.ofEnum mask (raw &&& mask)

/-- `FlagSet::fromEnum(num)` (bits.hpp:88-95): reject a candidate with bits
outside `VALID_MASK`, otherwise construct. -/
def FlagSet.fromEnum (w mask num : Nat) : Result (FlagSet mask) :=
  if isValidValue w mask num = false then
    err "Invalid enum value for FlagSet" ErrorType.VALUE_ERROR
  else
    ok (FlagSet.ofEnum mask num)

/-- Outcome of a single-flag operation: the returned `Result`/`Status` value,
or the `std::out_of_range` exception a bounds-checked `std::bitset` access
throws for a position `>= NUM_BITS` (reachable via the zero-input sentinel of
`bitPosition`). -/
inductive OpOutcome (α : Type) where
  | ok : α → OpOutcome α
  | error : Error → OpOutcome α
  | thrown : OpOutcome α
  deriving DecidableEq

/-- `FlagSet::has(num)` (bits.hpp:98-105): validate, then
`m_bits.test(bitPosition(num))`.  `has` is `const`: no state is returned
because none is changed. -/
def FlagSet.has (w : Nat) {mask : Nat} (s : FlagSet mask) (num : Nat) :
    OpOutcome Bool :=
  if isValidValue w mask num = false then
    .error (Error.mk "Invalid enum value" ErrorType.VALUE_ERROR)
  else if bitPosition mask num < NUM_BITS mask then
    .ok (s.bits.testBit (bitPosition mask num))
  else
    .thrown

/-- `FlagSet::set(num)` (bits.hpp:107-115): validate, then
`m_bits.set(bitPosition(num))`.  Returns the `Status` (or the exception)
paired with the post-call state; `std::bitset::set` checks bounds before
mutating, so the state is unchanged on both failure paths. -/
def FlagSet.set (w : Nat) {mask : Nat} (s : FlagSet mask) (num : Nat) :
    OpOutcome Unit × FlagSet mask :=
  if isValidValue w mask num = false then
    (.error (Error.mk "Invalid enum value" ErrorType.VALUE_ERROR), s)
  else if h : bitPosition mask num < NUM_BITS mask then
    (.ok (), ⟨s.bits ||| 2 ^ bitPosition mask num,
      Nat.or_lt_two_pow s.hbits (Nat.pow_lt_pow_of_lt (by decide) h)⟩)
  else
    (.thrown, s)

/-- `FlagSet::clear(num)` (bits.hpp:117-125): validate, then
`m_bits.reset(bitPosition(num))`, which clears that bit of the vector. -/
def FlagSet.clear (w : Nat) {mask : Nat} (s : FlagSet mask) (num : Nat) :
    OpOutcome Unit × FlagSet mask :=
  if isValidValue w mask num = false then
    (.error (Error.mk "Invalid enum value" ErrorType.VALUE_ERROR), s)
  else if bitPosition mask num < NUM_BITS mask then
    (.ok (), ⟨s.bits &&& complW (NUM_BITS mask) (2 ^ bitPosition mask num),
      Nat.lt_of_le_of_lt Nat.and_le_left s.hbits⟩)
  else
    (.thrown, s)

/-- `FlagSet::toggle(num)` (bits.hpp:127-135): validate, then
`m_bits.flip(bitPosition(num))`. -/
def FlagSet.toggle (w : Nat) {mask : Nat} (s : FlagSet mask) (num : Nat) :
    OpOutcome Unit × FlagSet mask :=
  if isValidValue w mask num = false then
    (.error (Error.mk "Invalid enum value" ErrorType.VALUE_ERROR), s)
  else if h : bitPosition mask num < NUM_BITS mask then
    (.ok (), ⟨s.bits ^^^ 2 ^ bitPosition mask num,
      Nat.xor_lt_two_pow s.hbits (Nat.pow_lt_pow_of_lt (by decide) h)⟩)
  else
    (.thrown, s)

/-- `FlagSet::setAll()` (bits.hpp:138-142): `m_bits = bitset(VALID_MASK)`,
always `ok()`. -/
def FlagSet.setAll {mask : Nat} (_s : FlagSet mask) :
    OpOutcome Unit × FlagSet mask :=
  (.ok (), ⟨mask % 2 ^ NUM_BITS mask, Nat.mod_lt _ (Nat.two_pow_pos _)⟩)

/-- `FlagSet::clearAll()` (bits.hpp:144-148): `m_bits.reset()`. -/
def FlagSet.clearAll {mask : Nat} (_s : FlagSet mask) :
    OpOutcome Unit × FlagSet mask :=
  (.ok (), ⟨0, Nat.two_pow_pos _⟩)

/-- `FlagSet::toggleAll()` (bits.hpp:150-154): `m_bits ^= bitset(VALID_MASK)`. -/
def FlagSet.toggleAll {mask : Nat} (s : FlagSet mask) :
    OpOutcome Unit × FlagSet mask :=
  (.ok (), ⟨s.bits ^^^ mask % 2 ^ NUM_BITS mask,
    Nat.xor_lt_two_pow s.hbits (Nat.mod_lt _ (Nat.two_pow_pos _))⟩)

/-- `FlagSet::toUnderlying()` (bits.hpp:157-160): `m_bits.to_ullong()`. -/
def FlagSet.toUnderlying {mask : Nat} (s : FlagSet mask) : Nat :=
  s.bits

/-- Instance `FlagSet::isValid()` (bits.hpp:189-192):
`(toUnderlying() & ~VALID_MASK) == 0`. -/
def FlagSet.isValid (w : Nat) {mask : Nat} (s : FlagSet mask) : Bool :=
  s.toUnderlying &&& complW w mask == 0

/-- `operator|` (bits.hpp:221-224):
`FlagSet(Enum(toUnderlying() | other.toUnderlying()))`. -/
def FlagSet.bitOr {mask : Nat} (a b : FlagSet mask) : FlagSet mask :=
  FlagSet.ofEnum mask (a.toUnderlying ||| b.toUnderlying)

/-- `operator&` (bits.hpp:226-229). -/
def FlagSet.bitAnd {mask : Nat} (a b : FlagSet mask) : FlagSet mask :=
  FlagSet.ofEnum mask (a.toUnderlying &&& b.toUnderlying)

/-- `operator~` (bits.hpp:231-234):
`FlagSet(Enum(~toUnderlying() & VALID_MASK))`. -/
def FlagSet.bitNot (w : Nat) {mask : Nat} (a : FlagSet mask) : FlagSet mask :=
  FlagSet.ofEnum mask (complW w a.toUnderlying &&& mask)

/-- `operator^` (bits.hpp:248-251). -/
def FlagSet.bitXor {mask : Nat} (a b : FlagSet mask) : FlagSet mask :=
  FlagSet.ofEnum mask (a.toUnderlying ^^^ b.toUnderlying)

/-- `operator|=` (bits.hpp:236-240): `m_bits |= other.m_bits`. -/
def FlagSet.orAssign {mask : Nat} (a b : FlagSet mask) : FlagSet mask :=
  ⟨a.bits ||| b.bits, Nat.or_lt_two_pow a.hbits b.hbits⟩

/-- `operator&=` (bits.hpp:242-246). -/
def FlagSet.andAssign {mask : Nat} (a b : FlagSet mask) : FlagSet mask :=
  ⟨a.bits &&& b.bits, Nat.lt_of_le_of_lt Nat.and_le_left a.hbits⟩

/-- `operator^=` (bits.hpp:253-257). -/
def FlagSet.xorAssign {mask : Nat} (a b : FlagSet mask) : FlagSet mask :=
  ⟨a.bits ^^^ b.bits, Nat.xor_lt_two_pow a.hbits b.hbits⟩

/-- The `Iterator::advance` loop (bits.hpp:289-294): move the index forward
past unset bits, stopping at a set bit or at `NUM_BITS`.  Fuel
`NUM_BITS - i` covers the loop's at most `NUM_BITS - i` increments. -/
def advanceAux (nb bitsv : Nat) : Nat → Nat → Nat
  | 0, i => i
  | fuel + 1, i =>
    if i < nb ∧ bitsv.testBit i = false then advanceAux nb bitsv fuel (i + 1)
    else i

/-- The sequence of flag values `*it` produced by iterating from index `i`
with `begin()`-style advancing until the `end()` index `NUM_BITS` is reached
(bits.hpp:259-305): each element is `Enum(1 << index)` at a set bit.  Fuel
`NUM_BITS + 1 - i` bounds the number of emitted elements plus one. -/
def iterAux (nb bitsv : Nat) : Nat → Nat → List Nat
  | 0, _ => []
  | fuel + 1, i =>
    let j := advanceAux nb bitsv (nb - i) i
    if j < nb then (1 <<< j) :: iterAux nb bitsv fuel (j + 1) else []

/-- The full iteration sequence of `begin()`/`end()` (bits.hpp:297-305). -/
def FlagSet.iterList {mask : Nat} (s : FlagSet mask) : List Nat :=
  iterAux (NUM_BITS mask) s.bits (NUM_BITS mask + 1) 0

/-- `FlagSet::forEach` (bits.hpp:195-203): the arguments passed to the
callback, in order — `Enum(1 << i)` for each `i < NUM_BITS` with bit `i`
set, ascending. -/
def FlagSet.forEachList {mask : Nat} (s : FlagSet mask) : List Nat :=
  ((List.range (NUM_BITS mask)).filter (fun i => s.bits.testBit i)).map
    (fun i => 1 <<< i)

/-! Basic facts about `NUM_BITS`, `bitPosition`, `complW` and validity. -/

theorem numBitsAux_congr :
    ∀ fuel fuel' v, v ≤ fuel → v ≤ fuel' →
      numBitsAux fuel v = numBitsAux fuel' v := by
  intro fuel
  induction fuel with
  | zero =>
    intro fuel' v hv _
    have hv0 : v = 0 := Nat.le_zero.mp hv
    subst hv0
    cases fuel' <;> simp [numBitsAux]
  | succ n ih =>
    intro fuel' v hv hv'
    cases fuel' with
    | zero =>
      have hv0 : v = 0 := Nat.le_zero.mp hv'
      subst hv0
      simp [numBitsAux]
    | succ m =>
      by_cases h0 : v = 0
      · subst h0
        simp [numBitsAux]
      · have hlt : v / 2 < v := Nat.div_lt_self (Nat.pos_of_ne_zero h0) (by decide)
        have h1 : v / 2 ≤ n := by omega
        have h2 : v / 2 ≤ m := by omega
        simp only [numBitsAux, if_neg h0]
        rw [ih m (v / 2) h1 h2]

theorem NUM_BITS_rec (v : Nat) (h : v ≠ 0) :
    NUM_BITS v = NUM_BITS (v / 2) + 1 := by
  cases v with
  | zero => exact absurd rfl h
  | succ n =>
    show numBitsAux (n + 1) (n + 1) = numBitsAux ((n + 1) / 2) ((n + 1) / 2) + 1
    simp only [numBitsAux, if_neg (Nat.succ_ne_zero n)]
    have h1 : (n + 1) / 2 ≤ n := by omega
    rw [numBitsAux_congr n ((n + 1) / 2) ((n + 1) / 2) h1 (Nat.le_refl _)]

theorem lt_two_pow_NUM_BITS (m : Nat) : m < 2 ^ NUM_BITS m := by
  induction m using Nat.strong_induction_on with
  | _ m ih =>
    by_cases h0 : m = 0
    · subst h0
      decide
    · rw [NUM_BITS_rec m h0, Nat.pow_succ]
      have hlt : m / 2 < m := Nat.div_lt_self (Nat.pos_of_ne_zero h0) (by decide)
      have := ih (m / 2) hlt
      omega

theorem NUM_BITS_le {m k : Nat} (h : m < 2 ^ k) : NUM_BITS m ≤ k := by
  induction m using Nat.strong_induction_on generalizing k with
  | _ m ih =>
    by_cases h0 : m = 0
    · subst h0
      simp [NUM_BITS, numBitsAux]
    · cases k with
      | zero =>
        simp only [Nat.pow_zero] at h
        omega
      | succ k' =>
        rw [NUM_BITS_rec m h0]
        have hlt : m / 2 < m := Nat.div_lt_self (Nat.pos_of_ne_zero h0) (by decide)
        have hdiv : m / 2 < 2 ^ k' := by
          rw [Nat.pow_succ] at h
          omega
        exact Nat.succ_le_succ (ih (m / 2) hlt hdiv)

theorem testBit_lt_NUM_BITS {m i : Nat} (h : m.testBit i = true) :
    i < NUM_BITS m := by
  by_contra hge
  have hle : NUM_BITS m ≤ i := Nat.le_of_not_lt hge
  have : m < 2 ^ i :=
    Nat.lt_of_lt_of_le (lt_two_pow_NUM_BITS m) (Nat.pow_le_pow_right (by decide) hle)
  rw [Nat.testBit_lt_two_pow this] at h
  exact Bool.false_ne_true h

theorem testBit_bitPosAux :
    ∀ fuel v, v ≠ 0 → v ≤ fuel → v.testBit (bitPosAux fuel v) = true := by
  intro fuel
  induction fuel with
  | zero =>
    intro v h0 hle
    omega
  | succ n ih =>
    intro v h0 hle
    by_cases hc : v &&& 1 = 0 ∧ v ≠ 0
    · simp only [bitPosAux, if_pos hc]
      rw [Nat.testBit_add_one]
      have heven : v % 2 = 0 := by
        have := hc.1
        rwa [Nat.and_one_is_mod] at this
      have hv2 : v / 2 ≠ 0 := by omega
      have hv2le : v / 2 ≤ n := by
        have : v / 2 < v := Nat.div_lt_self (Nat.pos_of_ne_zero h0) (by decide)
        omega
      exact ih (v / 2) hv2 hv2le
    · simp only [bitPosAux, if_neg hc]
      have hodd : v % 2 = 1 := by
        by_contra hne
        have heven : v % 2 = 0 := by omega
        exact hc ⟨by rw [Nat.and_one_is_mod]; exact heven, h0⟩
      simp [Nat.testBit_zero, hodd]

theorem testBit_complW {w mask i : Nat} (hi : i < w) :
    (complW w mask).testBit i = !mask.testBit i := by
  unfold complW
  rw [Nat.testBit_xor, Nat.testBit_two_pow_sub_one]
  simp [hi]

theorem testBit_complW_high {w mask i : Nat} (hm : mask < 2 ^ w) (hi : w ≤ i) :
    (complW w mask).testBit i = false := by
  have h : complW w mask < 2 ^ w := by
    unfold complW
    exact Nat.xor_lt_two_pow (by have := Nat.two_pow_pos w; omega) hm
  exact Nat.testBit_lt_two_pow
    (Nat.lt_of_lt_of_le h (Nat.pow_le_pow_right (by decide) hi))

theorem valid_testBit_mask {w mask num i : Nat}
    (hv : isValidValue w mask num = true) (hi : i < w)
    (hb : num.testBit i = true) : mask.testBit i = true := by
  have h0 : num &&& complW w mask = 0 := by
    simpa [isValidValue] using hv
  have := congrArg (fun n => n.testBit i) h0
  simp only [Nat.testBit_and, Nat.zero_testBit] at this
  rw [hb, testBit_complW hi] at this
  simp only [Bool.true_and, Bool.not_eq_false'] at this
  exact this

theorem land_complW_eq_zero {w mask b : Nat} (hm : mask < 2 ^ w)
    (hsub : ∀ i, b.testBit i = true → mask.testBit i = true) :
    b &&& complW w mask = 0 := by
  apply Nat.eq_of_testBit_eq
  intro i
  simp only [Nat.testBit_and, Nat.zero_testBit]
  cases hb : b.testBit i with
  | false => simp
  | true =>
    have hmi : mask.testBit i = true := hsub i hb
    have hiw : i < w := Nat.lt_of_lt_of_le (testBit_lt_NUM_BITS hmi) (NUM_BITS_le hm)
    rw [testBit_complW hiw, hmi]
    simp

theorem isValid_of_sub {w mask : Nat} {s : FlagSet mask} (hm : mask < 2 ^ w)
    (hsub : ∀ i, s.bits.testBit i = true → mask.testBit i = true) :
    FlagSet.isValid w s = true := by
  simp [FlagSet.isValid, FlagSet.toUnderlying, land_complW_eq_zero hm hsub]

theorem sub_of_isValid {w mask : Nat} {s : FlagSet mask} (hm : mask < 2 ^ w)
    (h : FlagSet.isValid w s = true) :
    ∀ i, s.bits.testBit i = true → mask.testBit i = true := by
  intro i hb
  have hnb : i < NUM_BITS mask := by
    by_contra hge
    have : s.bits < 2 ^ i :=
      Nat.lt_of_lt_of_le s.hbits (Nat.pow_le_pow_right (by decide) (Nat.le_of_not_lt hge))
    rw [Nat.testBit_lt_two_pow this] at hb
    exact Bool.false_ne_true hb
  have hiw : i < w := Nat.lt_of_lt_of_le hnb (NUM_BITS_le hm)
  have h0 : s.bits &&& complW w mask = 0 := by
    simpa [FlagSet.isValid, FlagSet.toUnderlying] using h
  have := congrArg (fun n => n.testBit i) h0
  simp only [Nat.testBit_and, Nat.zero_testBit] at this
  rw [hb, testBit_complW hiw] at this
  simp only [Bool.true_and, Bool.not_eq_false'] at this
  exact this

theorem ofEnum_bits (mask num : Nat) :
    (FlagSet.ofEnum mask num).bits = num &&& mask :=
  Nat.mod_eq_of_lt
    (Nat.lt_of_le_of_lt Nat.and_le_right (lt_two_pow_NUM_BITS mask))

theorem land_land_self (x y : Nat) : (x &&& y) &&& y = x &&& y :=
  Nat.eq_of_testBit_eq fun i => by
    simp [Nat.testBit_and, Bool.and_assoc]

theorem mask_mod_two_pow (mask : Nat) : mask % 2 ^ NUM_BITS mask = mask :=
  Nat.mod_eq_of_lt (lt_two_pow_NUM_BITS mask)

/-! Facts about the iterator's `advance` loop and the iteration sequence. -/

theorem le_advanceAux (nb bv : Nat) :
    ∀ fuel i, i ≤ advanceAux nb bv fuel i := by
  intro fuel
  induction fuel with
  | zero => intro i; simp [advanceAux]
  | succ n ih =>
    intro i
    by_cases hc : i < nb ∧ bv.testBit i = false
    · simp only [advanceAux, if_pos hc]
      exact Nat.le_trans (Nat.le_succ i) (ih (i + 1))
    · simp [advanceAux, if_neg hc]

theorem testBit_false_of_lt_advanceAux (nb bv : Nat) :
    ∀ fuel i k, i ≤ k → k < advanceAux nb bv fuel i →
      bv.testBit k = false := by
  intro fuel
  induction fuel with
  | zero =>
    intro i k hik hk
    simp only [advanceAux] at hk
    omega
  | succ n ih =>
    intro i k hik hk
    by_cases hc : i < nb ∧ bv.testBit i = false
    · simp only [advanceAux, if_pos hc] at hk
      by_cases hki : k = i
      · subst hki
        exact hc.2
      · exact ih (i + 1) k (by omega) hk
    · simp only [advanceAux, if_neg hc] at hk
      omega

theorem testBit_advanceAux (nb bv : Nat) :
    ∀ fuel i, nb - i ≤ fuel → advanceAux nb bv fuel i < nb →
      bv.testBit (advanceAux nb bv fuel i) = true := by
  intro fuel
  induction fuel with
  | zero =>
    intro i hfuel hlt
    simp only [advanceAux] at hlt
    omega
  | succ n ih =>
    intro i hfuel hlt
    by_cases hc : i < nb ∧ bv.testBit i = false
    · simp only [advanceAux, if_pos hc] at hlt ⊢
      exact ih (i + 1) (by omega) hlt
    · simp only [advanceAux, if_neg hc] at hlt ⊢
      rcases Decidable.not_and_iff_or_not.mp hc with h | h
      · omega
      · cases hb : bv.testBit i with
        | false => exact absurd hb h
        | true => rfl

theorem iterAux_eq (nb bv : Nat) :
    ∀ fuel i, nb + 1 - i ≤ fuel →
      iterAux nb bv fuel i =
        ((List.range' i (nb - i)).filter (fun k => bv.testBit k)).map
          (fun k => 1 <<< k) := by
  intro fuel
  induction fuel with
  | zero =>
    intro i hfuel
    have hi : nb - i = 0 := by omega
    simp [iterAux, hi]
  | succ n ih =>
    intro i hfuel
    simp only [iterAux]
    set j := advanceAux nb bv (nb - i) i with hj
    have hij : i ≤ j := le_advanceAux nb bv (nb - i) i
    by_cases hjnb : j < nb
    · rw [if_pos hjnb]
      have hjset : bv.testBit j = true :=
        testBit_advanceAux nb bv (nb - i) i (Nat.le_refl _) hjnb
      have hsplit : List.range' i (nb - i) =
          List.range' i (j - i) ++ List.range' j (nb - j) := by
        have := List.range'_append_1 i (j - i) (nb - j)
        rw [show i + (j - i) = j by omega] at this
        rw [show nb - j + (j - i) = nb - i by omega] at this
        exact this.symm
      have hskip :
          (List.range' i (j - i)).filter (fun k => bv.testBit k) = [] := by
        rw [List.filter_eq_nil_iff]
        intro k hk
        have hmem := List.mem_range'_1.mp hk
        have : bv.testBit k = false :=
          testBit_false_of_lt_advanceAux nb bv (nb - i) i k hmem.1 (by omega)
        simp [this]
      have hstep : List.range' j (nb - j) =
          j :: List.range' (j + 1) (nb - (j + 1)) := by
        rw [show nb - j = (nb - (j + 1)) + 1 by omega]
        exact List.range'_succ j (nb - (j + 1)) 1
      rw [hsplit, List.filter_append, hskip, List.nil_append, hstep]
      rw [List.filter_cons_of_pos hjset, List.map_cons]
      rw [ih (j + 1) (by omega)]
    · rw [if_neg hjnb]
      have hnone :
          (List.range' i (nb - i)).filter (fun k => bv.testBit k) = [] := by
        rw [List.filter_eq_nil_iff]
        intro k hk
        have hmem := List.mem_range'_1.mp hk
        have : bv.testBit k = false :=
          testBit_false_of_lt_advanceAux nb bv (nb - i) i k hmem.1 (by omega)
        simp [this]
      simp [hnone]

theorem iterList_eq_forEachList {mask : Nat} (s : FlagSet mask) :
    s.iterList = s.forEachList := by
  unfold FlagSet.iterList FlagSet.forEachList
  rw [iterAux_eq (NUM_BITS mask) s.bits (NUM_BITS mask + 1) 0 (by omega)]
  rw [List.range_eq_range']
  simp

/-! Claim theorems. -/

/-- C8: the static `Error::toStr(ErrorType)` mapping is total on the 17
error kinds, sending each kind to its exact documented, non-empty name, with
no omissions. -/
theorem error_kind_names_total :
    Error.toStr ErrorType.ARITHMETIC_ERROR = "ArithmeticError" ∧
    Error.toStr ErrorType.FLOATING_POINT_ERROR = "FloatingPointError" ∧
    Error.toStr ErrorType.OVERFLOW_ERROR = "OverflowError" ∧
    Error.toStr ErrorType.ZERO_DIVISION_ERROR = "ZeroDivisionError" ∧
    Error.toStr ErrorType.ASSERTION_ERROR = "AssertionError" ∧
    Error.toStr ErrorType.ATTRIBUTE_ERROR = "AttributeError" ∧
    Error.toStr ErrorType.INDEX_ERROR = "IndexError" ∧
    Error.toStr ErrorType.KEY_ERROR = "KeyError" ∧
    Error.toStr ErrorType.OS_ERROR = "OSError" ∧
    Error.toStr ErrorType.TIMEOUT_ERROR = "TimeoutError" ∧
    Error.toStr ErrorType.RUNTIME_ERROR = "RuntimeError" ∧
    Error.toStr ErrorType.NOT_IMPLEMENTED_ERROR = "NotImplementedError" ∧
    Error.toStr ErrorType.SYNTAX_ERROR = "SyntaxError" ∧
    Error.toStr ErrorType.SYSTEM_ERROR = "SystemError" ∧
    Error.toStr ErrorType.TYPE_ERROR = "TypeError" ∧
    Error.toStr ErrorType.VALUE_ERROR = "ValueError" ∧
    Error.toStr ErrorType.GENERIC_ERROR = "GenericError" ∧
    ∀ t : ErrorType, 0 < (Error.toStr t).length := by
  refine ⟨rfl, rfl, rfl, rfl, rfl, rfl, rfl, rfl, rfl, rfl, rfl, rfl, rfl,
    rfl, rfl, rfl, rfl, ?_⟩
  intro t
  cases t <;> decide

/-- C7: the instance `Error::toStr()` formats `"<KindName>: <message>"` into
the bounded buffer: for `Error("division by zero", ZERO_DIVISION)` the result
is exactly `"ZeroDivisionError: division by zero"`, and for a 300-character
message the result is silently truncated to the buffer capacity of 255
visible characters while the `"ZeroDivisionError: "` prefix stays intact. -/
theorem error_format_bounded :
    Error.toStrBuf (Error.mk "division by zero" ErrorType.ZERO_DIVISION_ERROR) =
      "ZeroDivisionError: division by zero".data ∧
    (Error.toStrBuf (Error.mk (String.mk (List.replicate 300 'a'))
        ErrorType.ZERO_DIVISION_ERROR)).length ≤ 255 ∧
    (Error.toStrBuf (Error.mk (String.mk (List.replicate 300 'a'))
        ErrorType.ZERO_DIVISION_ERROR)).take 19 =
      "ZeroDivisionError: ".data := by
  refine ⟨by decide, by decide, by decide⟩

/-- C9: `unwrap` returns exactly the success payload of a successful result
and never returns (the process is terminated, modelled by `none`) on an
error; `verify` has the same contract for the no-payload `Status`. -/
theorem unwrap_verify_fatal (T : Type) (v : T) (e e' : Error) :
    unwrap (ok v) = some v ∧
    unwrap (Except.error e : Result T) = none ∧
    verify okStatus = some () ∧
    verify (Except.error e' : Status) = none :=
  ⟨rfl, rfl, rfl, rfl⟩

/-- C2: `fromUnderlying` never fails, `fromUnderlying(r).toUnderlying()`
equals `r & VALID_MASK` for every raw underlying integer, and re-ingesting
the masked value reproduces the same flag set (masked ingestion is
idempotent). -/
theorem fromUnderlying_mask_idempotent (mask raw : Nat) :
    (FlagSet.fromUnderlying mask raw).toUnderlying = raw &&& mask ∧
    FlagSet.fromUnderlying mask ((FlagSet.fromUnderlying mask raw).toUnderlying) =
      FlagSet.fromUnderlying mask raw := by
  have h1 : (FlagSet.fromUnderlying mask raw).toUnderlying = raw &&& mask := by
    show (FlagSet.ofEnum mask (raw &&& mask)).bits = raw &&& mask
    rw [ofEnum_bits, land_land_self]
  refine ⟨h1, ?_⟩
  rw [h1]
  apply FlagSet.ext
  show (FlagSet.ofEnum mask ((raw &&& mask) &&& mask)).bits =
    (FlagSet.ofEnum mask (raw &&& mask)).bits
  rw [ofEnum_bits, ofEnum_bits, land_land_self]

/-- C3: `fromEnum(v)` succeeds exactly when `v & ~VALID_MASK == 0`, yielding
a flag set with the same stored bits as `fromUnderlying(v)`, and fails with a
value-kind error otherwise. -/
theorem fromEnum_strict_lenient (w mask num : Nat) :
    FlagSet.fromEnum w mask num =
      if isValidValue w mask num = true then
        Except.ok (FlagSet.fromUnderlying mask num)
      else
        Except.error (Error.mk "Invalid enum value for FlagSet"
          ErrorType.VALUE_ERROR) := by
  unfold FlagSet.fromEnum err ok
  by_cases h : isValidValue w mask num = true
  · have hfs : FlagSet.ofEnum mask num = FlagSet.fromUnderlying mask num := by
      apply FlagSet.ext
      show (FlagSet.ofEnum mask num).bits = (FlagSet.ofEnum mask (num &&& mask)).bits
      rw [ofEnum_bits, ofEnum_bits, land_land_self]
    simp only [h, hfs]
    norm_num
  · have hf : isValidValue w mask num = false := by
      cases hb : isValidValue w mask num with
      | false => rfl
      | true => exact absurd hb h
    simp only [hf]
    norm_num

/-- C1 counterexample: the claim "a zero or multi-bit candidate fails with a
value-kind error" is false on the code.  With `VALID_MASK = 7` (underlying
width 8), the multi-bit candidate `3` (two bits, both inside the mask)
passes the `isValid` check, so `set(3)` succeeds with `ok()` and sets bit 0
(the candidate's lowest set bit), and the zero candidate also passes the
check, after which `bitPosition` returns the `NUM_BITS` sentinel and the
bounds-checked `std::bitset` access throws `std::out_of_range` instead of
returning a value-kind error. -/
theorem single_flag_zero_multibit_counterexample :
    (FlagSet.set 8 (FlagSet.empty 7) 3).1 = OpOutcome.ok () ∧
    (FlagSet.set 8 (FlagSet.empty 7) 3).2.bits = 1 ∧
    FlagSet.has 8 (FlagSet.empty 7) 0 = OpOutcome.thrown := by
  decide

/-- C1 (amended): `has`/`set`/`clear`/`toggle` fail with a value-kind error
exactly for a candidate with bits outside `VALID_MASK`; a zero candidate
passes validation but every bit access then throws `std::out_of_range` at
the `bitPosition` sentinel, leaving the vector unchanged; any other valid
candidate (including a multi-bit one) succeeds, acting on the position of
the candidate's lowest set bit — `has` reads that bit without mutating, and
`set`/`clear`/`toggle` set, clear, or flip exactly that bit of the stored
vector and return success with no payload. -/
theorem single_flag_ops_domain (w mask : Nat) (s : FlagSet mask) (num : Nat)
    (hm : mask < 2 ^ w) (hn : num < 2 ^ w) :
    if isValidValue w mask num = false then
      FlagSet.has w s num =
        OpOutcome.error (Error.mk "Invalid enum value" ErrorType.VALUE_ERROR) ∧
      FlagSet.set w s num =
        (OpOutcome.error (Error.mk "Invalid enum value" ErrorType.VALUE_ERROR), s) ∧
      FlagSet.clear w s num =
        (OpOutcome.error (Error.mk "Invalid enum value" ErrorType.VALUE_ERROR), s) ∧
      FlagSet.toggle w s num =
        (OpOutcome.error (Error.mk "Invalid enum value" ErrorType.VALUE_ERROR), s)
    else if num = 0 then
      FlagSet.has w s num = OpOutcome.thrown ∧
      FlagSet.set w s num = (OpOutcome.thrown, s) ∧
      FlagSet.clear w s num = (OpOutcome.thrown, s) ∧
      FlagSet.toggle w s num = (OpOutcome.thrown, s)
    else
      bitPosition mask num < NUM_BITS mask ∧
      num.testBit (bitPosition mask num) = true ∧
      FlagSet.has w s num = OpOutcome.ok (s.bits.testBit (bitPosition mask num)) ∧
      (FlagSet.set w s num).1 = OpOutcome.ok () ∧
      (FlagSet.set w s num).2.bits = s.bits ||| 2 ^ bitPosition mask num ∧
      (FlagSet.clear w s num).1 = OpOutcome.ok () ∧
      (FlagSet.clear w s num).2.bits =
        s.bits &&& complW (NUM_BITS mask) (2 ^ bitPosition mask num) ∧
      (FlagSet.toggle w s num).1 = OpOutcome.ok () ∧
      (FlagSet.toggle w s num).2.bits = s.bits ^^^ 2 ^ bitPosition mask num := by
  by_cases hv : isValidValue w mask num = false
  · rw [if_pos hv]
    refine ⟨?_, ?_, ?_, ?_⟩ <;>
      simp [FlagSet.has, FlagSet.set, FlagSet.clear, FlagSet.toggle, hv]
  · rw [if_neg hv]
    have hvt : isValidValue w mask num = true := by
      cases hb : isValidValue w mask num with
      | false => exact absurd hb hv
      | true => rfl
    by_cases h0 : num = 0
    · rw [if_pos h0]
      subst h0
      have hpos : bitPosition mask 0 = NUM_BITS mask := by
        unfold bitPosition
        rw [if_pos rfl]
      refine ⟨?_, ?_, ?_, ?_⟩ <;>
        simp [FlagSet.has, FlagSet.set, FlagSet.clear, FlagSet.toggle, hvt, hpos]
    · rw [if_neg h0]
      have hb : num.testBit (bitPosition mask num) = true := by
        unfold bitPosition
        rw [if_neg h0]
        exact testBit_bitPosAux num num h0 (Nat.le_refl _)
      have hpw : bitPosition mask num < w := by
        by_contra hge
        have : num < 2 ^ bitPosition mask num :=
          Nat.lt_of_lt_of_le hn
            (Nat.pow_le_pow_right (by decide) (Nat.le_of_not_lt hge))
        rw [Nat.testBit_lt_two_pow this] at hb
        exact Bool.false_ne_true hb
      have hmaskp : mask.testBit (bitPosition mask num) = true :=
        valid_testBit_mask hvt hpw hb
      have hp : bitPosition mask num < NUM_BITS mask :=
        testBit_lt_NUM_BITS hmaskp
      refine ⟨hp, hb, ?_, ?_, ?_, ?_, ?_, ?_, ?_⟩ <;>
        simp [FlagSet.has, FlagSet.set, FlagSet.clear, FlagSet.toggle, hvt, hp]

/-- C1 witness: on the concrete mask `7` over an 8-bit underlying type, the
amended theorem computes the documented behavior for the legal single-bit
flag `4` and for the multi-bit candidate `3`. -/
theorem single_flag_ops_domain_witness :
    (FlagSet.has 8 (FlagSet.empty 7) 4 = OpOutcome.ok false ∧
      (FlagSet.set 8 (FlagSet.empty 7) 4).2.bits = 4) ∧
    (FlagSet.set 8 (FlagSet.empty 7) 3).2.bits = 1 := by
  have h4 := single_flag_ops_domain 8 7 (FlagSet.empty 7) 4 (by decide) (by decide)
  have h3 := single_flag_ops_domain 8 7 (FlagSet.empty 7) 3 (by decide) (by decide)
  rw [if_neg (by decide), if_neg (by decide)] at h4
  rw [if_neg (by decide), if_neg (by decide)] at h3
  refine ⟨⟨?_, ?_⟩, ?_⟩
  · rw [h4.2.2.1]
    decide
  · rw [h4.2.2.2.2.1]
    decide
  · rw [h3.2.2.2.2.1]
    decide

/-- C10: whenever `set`, `clear` or `toggle` returns a value-kind error the
stored bit vector is exactly as it was before the call, and `fromEnum`
returns an error only when the candidate failed the `isValid` check (so no
flag set is ever built from an invalid candidate): validation precedes any
mutation. -/
theorem validation_failure_atomic (w mask : Nat) (s : FlagSet mask)
    (num : Nat) (e : Error) :
    ((FlagSet.set w s num).1 = OpOutcome.error e → (FlagSet.set w s num).2 = s) ∧
    ((FlagSet.clear w s num).1 = OpOutcome.error e → (FlagSet.clear w s num).2 = s) ∧
    ((FlagSet.toggle w s num).1 = OpOutcome.error e → (FlagSet.toggle w s num).2 = s) ∧
    (FlagSet.fromEnum w mask num = Except.error e →
      isValidValue w mask num = false) := by
  refine ⟨?_, ?_, ?_, ?_⟩
  · unfold FlagSet.set
    split
    · intro _
      rfl
    · split
      · intro h
        simp at h
      · intro _
        rfl
  · unfold FlagSet.clear
    split
    · intro _
      rfl
    · split
      · intro h
        simp at h
      · intro _
        rfl
  · unfold FlagSet.toggle
    split
    · intro _
      rfl
    · split
      · intro h
        simp at h
      · intro _
        rfl
  · unfold FlagSet.fromEnum
    split
    · intro _
      assumption
    · intro h
      simp [ok] at h

/-- C10 witness: for the out-of-mask candidate `8` on mask `7`, a failed
`set` leaves the empty flag set unchanged and a failed `fromEnum` comes from
the failed validity check. -/
theorem validation_failure_atomic_witness :
    (FlagSet.set 8 (FlagSet.empty 7) 8).2 = FlagSet.empty 7 ∧
    isValidValue 8 7 8 = false :=
  ⟨(validation_failure_atomic 8 7 (FlagSet.empty 7) 8
      (Error.mk "Invalid enum value" ErrorType.VALUE_ERROR)).1 (by decide),
   (validation_failure_atomic 8 7 (FlagSet.empty 7) 8
      (Error.mk "Invalid enum value for FlagSet" ErrorType.VALUE_ERROR)).2.2.2 rfl⟩

/-! Reachability through the public interface, and the remaining claims. -/

theorem bool_and_true {a b : Bool} (h : (a && b) = true) :
    a = true ∧ b = true := by
  cases a <;> cases b <;> simp_all

theorem bool_or_true {a b : Bool} (h : (a || b) = true) :
    a = true ∨ b = true := by
  cases a <;> cases b <;> simp_all

theorem sub_ofEnum (mask x : Nat) :
    ∀ i, (FlagSet.ofEnum mask x).bits.testBit i = true → mask.testBit i = true := by
  intro i hb
  rw [ofEnum_bits, Nat.testBit_and] at hb
  exact (bool_and_true hb).2

theorem isValid_ofEnum {w mask : Nat} (hm : mask < 2 ^ w) (x : Nat) :
    FlagSet.isValid w (FlagSet.ofEnum mask x) = true :=
  isValid_of_sub hm (sub_ofEnum mask x)

theorem valid_pos_in_mask {w mask num : Nat} (hm : mask < 2 ^ w)
    (hvt : isValidValue w mask num = true)
    (hp : bitPosition mask num < NUM_BITS mask) :
    mask.testBit (bitPosition mask num) = true := by
  have h0 : num ≠ 0 := by
    intro h
    subst h
    unfold bitPosition at hp
    rw [if_pos rfl] at hp
    exact Nat.lt_irrefl _ hp
  have hb : num.testBit (bitPosition mask num) = true := by
    unfold bitPosition
    rw [if_neg h0]
    exact testBit_bitPosAux num num h0 (Nat.le_refl _)
  exact valid_testBit_mask hvt (Nat.lt_of_lt_of_le hp (NUM_BITS_le hm)) hb

theorem set_state_cases (w mask : Nat) (s : FlagSet mask) (num : Nat) :
    (FlagSet.set w s num).2 = s ∨
    (isValidValue w mask num = true ∧ bitPosition mask num < NUM_BITS mask ∧
      (FlagSet.set w s num).2.bits = s.bits ||| 2 ^ bitPosition mask num) := by
  unfold FlagSet.set
  split
  · exact Or.inl rfl
  · next hvalid =>
    split
    · next hp =>
      refine Or.inr ⟨?_, hp, rfl⟩
      cases hb : isValidValue w mask num with
      | false => exact absurd hb hvalid
      | true => rfl
    · exact Or.inl rfl

theorem clear_state_cases (w mask : Nat) (s : FlagSet mask) (num : Nat) :
    (FlagSet.clear w s num).2 = s ∨
    (FlagSet.clear w s num).2.bits =
      s.bits &&& complW (NUM_BITS mask) (2 ^ bitPosition mask num) := by
  unfold FlagSet.clear
  split
  · exact Or.inl rfl
  · split
    · exact Or.inr rfl
    · exact Or.inl rfl

theorem toggle_state_cases (w mask : Nat) (s : FlagSet mask) (num : Nat) :
    (FlagSet.toggle w s num).2 = s ∨
    (isValidValue w mask num = true ∧ bitPosition mask num < NUM_BITS mask ∧
      (FlagSet.toggle w s num).2.bits = s.bits ^^^ 2 ^ bitPosition mask num) := by
  unfold FlagSet.toggle
  split
  · exact Or.inl rfl
  · next hvalid =>
    split
    · next hp =>
      refine Or.inr ⟨?_, hp, rfl⟩
      cases hb : isValidValue w mask num with
      | false => exact absurd hb hvalid
      | true => rfl
    · exact Or.inl rfl

/-- Every flag set reachable through the public interface of
`FlagSet<Enum>` (bits.hpp:74-305): any constructor or factory, followed by
any sequence of mutating member functions, including compound assignment
with other reachable flag sets and the value-producing bitwise operators. -/
inductive Reachable (w mask : Nat) : FlagSet mask → Prop where
  | empty : Reachable w mask (FlagSet.empty mask)
  | ofEnum (num : Nat) : Reachable w mask (FlagSet.ofEnum mask num)
  | fromUnderlying (raw : Nat) :
      Reachable w mask (FlagSet.fromUnderlying mask raw)
  | fromEnum (num : Nat) (s : FlagSet mask) :
      FlagSet.fromEnum w mask num = Except.ok s → Reachable w mask s
  | set (s : FlagSet mask) (num : Nat) :
      Reachable w mask s → Reachable w mask (FlagSet.set w s num).2
  | clear (s : FlagSet mask) (num : Nat) :
      Reachable w mask s → Reachable w mask (FlagSet.clear w s num).2
  | toggle (s : FlagSet mask) (num : Nat) :
      Reachable w mask s → Reachable w mask (FlagSet.toggle w s num).2
  | setAll (s : FlagSet mask) :
      Reachable w mask s → Reachable w mask (FlagSet.setAll s).2
  | clearAll (s : FlagSet mask) :
      Reachable w mask s → Reachable w mask (FlagSet.clearAll s).2
  | toggleAll (s : FlagSet mask) :
      Reachable w mask s → Reachable w mask (FlagSet.toggleAll s).2
  | bitOr (a b : FlagSet mask) :
      Reachable w mask a → Reachable w mask b → Reachable w mask (a.bitOr b)
  | bitAnd (a b : FlagSet mask) :
      Reachable w mask a → Reachable w mask b → Reachable w mask (a.bitAnd b)
  | bitXor (a b : FlagSet mask) :
      Reachable w mask a → Reachable w mask b → Reachable w mask (a.bitXor b)
  | bitNot (a : FlagSet mask) :
      Reachable w mask a → Reachable w mask (FlagSet.bitNot w a)
  | orAssign (a b : FlagSet mask) :
      Reachable w mask a → Reachable w mask b → Reachable w mask (a.orAssign b)
  | andAssign (a b : FlagSet mask) :
      Reachable w mask a → Reachable w mask b → Reachable w mask (a.andAssign b)
  | xorAssign (a b : FlagSet mask) :
      Reachable w mask a → Reachable w mask b → Reachable w mask (a.xorAssign b)

theorem reachable_sub {w mask : Nat} (hm : mask < 2 ^ w) {s : FlagSet mask}
    (hr : Reachable w mask s) :
    ∀ i, s.bits.testBit i = true → mask.testBit i = true := by
  induction hr with
  | empty =>
    intro i hb
    simp only [show (FlagSet.empty mask).bits = 0 from rfl, Nat.zero_testBit] at hb
    exact absurd hb Bool.false_ne_true
  | ofEnum num => exact sub_ofEnum mask num
  | fromUnderlying raw => exact sub_ofEnum mask (raw &&& mask)
  | fromEnum num s heq =>
    unfold FlagSet.fromEnum at heq
    split at heq
    · simp [err] at heq
    · simp only [ok, Except.ok.injEq] at heq
      subst heq
      exact sub_ofEnum mask num
  | set s num hr ih =>
    intro i hb
    rcases set_state_cases w mask s num with hcase | ⟨hvt, hp, hbits⟩
    · rw [hcase] at hb
      exact ih i hb
    · rw [hbits, Nat.testBit_or] at hb
      rcases bool_or_true hb with h | h
      · exact ih i h
      · rw [Nat.testBit_two_pow] at h
        have := of_decide_eq_true h
        subst this
        exact valid_pos_in_mask hm hvt hp
  | clear s num hr ih =>
    intro i hb
    rcases clear_state_cases w mask s num with hcase | hbits
    · rw [hcase] at hb
      exact ih i hb
    · rw [hbits, Nat.testBit_and] at hb
      exact ih i (bool_and_true hb).1
  | toggle s num hr ih =>
    intro i hb
    rcases toggle_state_cases w mask s num with hcase | ⟨hvt, hp, hbits⟩
    · rw [hcase] at hb
      exact ih i hb
    · rw [hbits, Nat.testBit_xor] at hb
      cases hsi : s.bits.testBit i with
      | true => exact ih i hsi
      | false =>
        rw [hsi] at hb
        simp only [Bool.false_xor] at hb
        rw [Nat.testBit_two_pow] at hb
        have := of_decide_eq_true hb
        subst this
        exact valid_pos_in_mask hm hvt hp
  | setAll s hr ih =>
    intro i hb
    rw [show (FlagSet.setAll s).2.bits = mask % 2 ^ NUM_BITS mask from rfl,
      mask_mod_two_pow] at hb
    exact hb
  | clearAll s hr ih =>
    intro i hb
    simp only [show (FlagSet.clearAll s).2.bits = 0 from rfl,
      Nat.zero_testBit] at hb
    exact absurd hb Bool.false_ne_true
  | toggleAll s hr ih =>
    intro i hb
    rw [show (FlagSet.toggleAll s).2.bits = s.bits ^^^ mask % 2 ^ NUM_BITS mask
        from rfl, mask_mod_two_pow, Nat.testBit_xor] at hb
    cases hsi : s.bits.testBit i with
    | true => exact ih i hsi
    | false =>
      rw [hsi] at hb
      simpa using hb
  | bitOr a b hra hrb iha ihb => exact sub_ofEnum mask _
  | bitAnd a b hra hrb iha ihb => exact sub_ofEnum mask _
  | bitXor a b hra hrb iha ihb => exact sub_ofEnum mask _
  | bitNot a hra iha => exact sub_ofEnum mask _
  | orAssign a b hra hrb iha ihb =>
    intro i hb
    rw [show (a.orAssign b).bits = a.bits ||| b.bits from rfl,
      Nat.testBit_or] at hb
    rcases bool_or_true hb with h | h
    · exact iha i h
    · exact ihb i h
  | andAssign a b hra hrb iha ihb =>
    intro i hb
    rw [show (a.andAssign b).bits = a.bits &&& b.bits from rfl,
      Nat.testBit_and] at hb
    exact iha i (bool_and_true hb).1
  | xorAssign a b hra hrb iha ihb =>
    intro i hb
    rw [show (a.xorAssign b).bits = a.bits ^^^ b.bits from rfl,
      Nat.testBit_xor] at hb
    cases hai : a.bits.testBit i with
    | true => exact iha i hai
    | false =>
      rw [hai] at hb
      simp only [Bool.false_xor] at hb
      exact ihb i hb

/-- C4: every `FlagSet` reachable through the public interface keeps the
invariant `toUnderlying() & ~VALID_MASK == 0`; equivalently the instance
form of `isValid()` returns `true` for every reachable flag set. -/
theorem reachable_always_valid (w mask : Nat) (hm : mask < 2 ^ w)
    (s : FlagSet mask) (hr : Reachable w mask s) :
    FlagSet.isValid w s = true :=
  isValid_of_sub hm (reachable_sub hm hr)

/-- C4 witness: a concretely constructed flag set (mask `7`, raw value `5`,
8-bit underlying) is reachable and valid. -/
theorem reachable_always_valid_witness :
    FlagSet.isValid 8 (FlagSet.ofEnum 7 5) = true :=
  reachable_always_valid 8 7 (by decide) (FlagSet.ofEnum 7 5)
    (Reachable.ofEnum 5)

/-- C5: on valid flag sets the bitwise operators are closed — `a|b`, `a&b`,
`a^b` and `~a` all satisfy the instance `isValid()` — and the Boolean laws
restricted to `VALID_MASK` hold: double complement is the identity and
conjunction with the full-mask set is the identity, so the complement never
leaves the valid universe. -/
theorem bitwise_algebra_closure (w mask : Nat) (a b : FlagSet mask)
    (hm : mask < 2 ^ w) (ha : FlagSet.isValid w a = true)
    (hb : FlagSet.isValid w b = true) :
    FlagSet.isValid w (a.bitOr b) = true ∧
    FlagSet.isValid w (a.bitAnd b) = true ∧
    FlagSet.isValid w (a.bitXor b) = true ∧
    FlagSet.isValid w (FlagSet.bitNot w a) = true ∧
    FlagSet.bitNot w (FlagSet.bitNot w a) = a ∧
    a.bitAnd (FlagSet.fromUnderlying mask mask) = a := by
  have hsuba := sub_of_isValid hm ha
  refine ⟨isValid_ofEnum hm _, isValid_ofEnum hm _, isValid_ofEnum hm _,
    isValid_ofEnum hm _, ?_, ?_⟩
  · apply FlagSet.ext
    show (FlagSet.ofEnum mask
        (complW w (FlagSet.ofEnum mask (complW w a.bits &&& mask)).bits &&& mask)).bits
      = a.bits
    rw [ofEnum_bits, ofEnum_bits, land_land_self]
    apply Nat.eq_of_testBit_eq
    intro i
    by_cases him : mask.testBit i = true
    · have hiw : i < w :=
        Nat.lt_of_lt_of_le (testBit_lt_NUM_BITS him) (NUM_BITS_le hm)
      simp [Nat.testBit_and, testBit_complW hiw, him]
    · have hmf : mask.testBit i = false := by
        cases hc : mask.testBit i with
        | false => rfl
        | true => exact absurd hc him
      have haf : a.bits.testBit i = false := by
        cases hc : a.bits.testBit i with
        | false => rfl
        | true => exact absurd (hsuba i hc) him
      simp [Nat.testBit_and, hmf, haf]
  · apply FlagSet.ext
    show (FlagSet.ofEnum mask
        (a.bits &&& (FlagSet.ofEnum mask (mask &&& mask)).bits)).bits = a.bits
    rw [ofEnum_bits, ofEnum_bits, land_land_self]
    apply Nat.eq_of_testBit_eq
    intro i
    cases hai : a.bits.testBit i with
    | false => simp [Nat.testBit_and, hai]
    | true => simp [Nat.testBit_and, hai, hsuba i hai]

/-- C5 witness: the algebra laws at the concrete valid flag sets `5` and `6`
over mask `7` (8-bit underlying). -/
theorem bitwise_algebra_closure_witness :
    FlagSet.isValid 8 ((FlagSet.fromUnderlying 7 5).bitOr
      (FlagSet.fromUnderlying 7 6)) = true ∧
    FlagSet.bitNot 8 (FlagSet.bitNot 8 (FlagSet.fromUnderlying 7 5)) =
      FlagSet.fromUnderlying 7 5 ∧
    (FlagSet.fromUnderlying 7 5).bitAnd (FlagSet.fromUnderlying 7 7) =
      FlagSet.fromUnderlying 7 5 := by
  have h := bitwise_algebra_closure 8 7 (FlagSet.fromUnderlying 7 5)
    (FlagSet.fromUnderlying 7 6) (by decide) (by decide) (by decide)
  exact ⟨h.1, h.2.2.2.2.1, h.2.2.2.2.2⟩

/-- C6: iterating a flag set with `begin()`/`end()` yields a finite sequence
bounded in length by `NUM_BITS`, consisting of exactly the single-bit flags
`1 << i` whose bits are currently set, in strictly ascending order, and that
sequence equals, element for element, the sequence of arguments `forEach`
passes to its callback. -/
theorem iteration_forEach_equiv (mask : Nat) (s : FlagSet mask) :
    s.iterList = s.forEachList ∧
    s.iterList.length ≤ NUM_BITS mask ∧
    List.Pairwise (fun x y => x < y) s.iterList ∧
    ∀ v, v ∈ s.iterList ↔
      ∃ i, i < NUM_BITS mask ∧ s.bits.testBit i = true ∧ v = 1 <<< i := by
  have hmono : ∀ x y : Nat, x < y → 1 <<< x < 1 <<< y := by
    intro x y hxy
    rw [Nat.shiftLeft_eq, Nat.shiftLeft_eq, Nat.one_mul, Nat.one_mul]
    exact Nat.pow_lt_pow_of_lt (by decide) hxy
  refine ⟨iterList_eq_forEachList s, ?_, ?_, ?_⟩
  · rw [iterList_eq_forEachList s]
    unfold FlagSet.forEachList
    rw [List.length_map]
    exact Nat.le_trans (List.length_filter_le _ _) (by simp)
  · rw [iterList_eq_forEachList s]
    unfold FlagSet.forEachList
    exact List.Pairwise.map _ hmono
      (List.Pairwise.sublist (List.filter_sublist _)
        (List.pairwise_lt_range (NUM_BITS mask)))
  · intro v
    rw [iterList_eq_forEachList s]
    unfold FlagSet.forEachList
    simp only [List.mem_map, List.mem_filter, List.mem_range]
    constructor
    · rintro ⟨i, ⟨hi, hbi⟩, rfl⟩
      exact ⟨i, hi, hbi, rfl⟩
    · rintro ⟨i, hi, hbi, rfl⟩
      exact ⟨i, ⟨hi, hbi⟩, rfl⟩

/-- C6 witness: on the gap-mask `27` with all valid flags set, iteration and
`forEach` agree and produce `[1, 2, 8, 16]` in ascending order. -/
theorem iteration_forEach_equiv_witness :
    (FlagSet.fromUnderlying 27 27).iterList =
      (FlagSet.fromUnderlying 27 27).forEachList ∧
    (FlagSet.fromUnderlying 27 27).iterList = [1, 2, 8, 16] :=
  ⟨(iteration_forEach_equiv 27 (FlagSet.fromUnderlying 27 27)).1, by decide⟩

end Common
